import Mathlib

/-!
# Verification of the epstein-search pipeline

Shallow embedding of the two source modules of the repository:

* `split_json.py` — the size-bounded partitioner (`split_json_file`):
  JSON values are modelled by `JVal`, Python's `json.dumps(doc, ensure_ascii=False)`
  by `dumps` (compact, default separators `", "` / `": "`), and
  `json.dump(chunk, f, indent=2, ensure_ascii=False)` by `dumpsInd`.
  Byte sizes are UTF-8 lengths (`utf8Len`).  The loop over `documents` is
  `splitLoop`; the ceiling parameter `max_size_mb` is a rational, and the
  comparison `(current_size + doc_size) / (1024 * 1024) > max_size_mb` is kept
  exactly as in the source (for the dyadic values appearing here, Python float
  division by the power of two `1024 * 1024` is exact, so rational arithmetic
  agrees with the source's float arithmetic).

* `prepare_for_meilisearch.py` — the segmenter: Python strings are `List Char`
  (sequences of code points, as Python slicing and `re` positions are in code
  points).  The three concrete regular expressions of the source are modelled
  by token lists (`Tok`) interpreted by a leftmost, greedy, backtracking
  matcher (`matchToks` / `reSearch` / `reFinditer`) that implements exactly
  `re.search` / `re.finditer` semantics for patterns built from literals and
  one-or-more character classes.  The character classes `\s`, `\d`, `\w` are
  modelled over their ASCII content (the documents are ASCII legal filings;
  none of the verified claims depends on the extra non-ASCII members).
-/

/-! ## JSON value model and Python `json` serialization -/

inductive JVal where
  | jnull : JVal
  | jbool : Bool → JVal
  | jint : Int → JVal
  | jstr : List Char → JVal
  | jarr : List JVal → JVal
  | jobj : List (List Char × JVal) → JVal

/-- Lower-case hex digit, as used by Python's `\u00xx` escapes. -/
def hexDigit (n : ℕ) : Char :=
  if n < 10 then Char.ofNat (48 + n) else Char.ofNat (87 + n)

/-- CPython's string escaping with `ensure_ascii=False`: only `"`, `\` and
control characters below 0x20 are escaped (short escapes for `\b \t \n \f \r`,
`\u00xx` otherwise); every other code point is emitted literally. -/
def escChar (c : Char) : List Char :=
  if c = '"' then ['\\', '"']
  else if c = '\\' then ['\\', '\\']
  else if c = '\n' then ['\\', 'n']
  else if c = '\r' then ['\\', 'r']
  else if c = '\t' then ['\\', 't']
  else if c = Char.ofNat 8 then ['\\', 'b']
  else if c = Char.ofNat 12 then ['\\', 'f']
  else if c.toNat < 32 then
    ['\\', 'u', '0', '0', hexDigit (c.toNat / 16), hexDigit (c.toNat % 16)]
  else [c]

/-- A JSON string literal: quotes around the escaped code points. -/
def jstrChars (s : List Char) : List Char :=
  ('"' :: s.flatMap escChar) ++ ['"']

/-- Python `str(n)` for an `int`. -/
def intChars (n : ℤ) : List Char :=
  if n < 0 then '-' :: Nat.toDigits 10 n.natAbs else Nat.toDigits 10 n.natAbs

mutual

/-- `json.dumps(v, ensure_ascii=False)`: compact serialization with Python's
default separators `", "` (items) and `": "` (key/value). -/
def dumps : JVal → List Char
  | .jnull => ['n', 'u', 'l', 'l']
  | .jbool true => ['t', 'r', 'u', 'e']
  | .jbool false => ['f', 'a', 'l', 's', 'e']
  | .jint n => intChars n
  | .jstr s => jstrChars s
  | .jarr xs => ('[' :: dumpsList xs) ++ [']']
  | .jobj kvs => (Char.ofNat 123 :: dumpsObj kvs) ++ [Char.ofNat 125]

/-- Array items joined by `", "`. -/
def dumpsList : List JVal → List Char
  | [] => []
  | [x] => dumps x
  | x :: y :: xs => (dumps x ++ [',', ' ']) ++ dumpsList (y :: xs)

/-- Object entries `"key": value` joined by `", "`. -/
def dumpsObj : List (List Char × JVal) → List Char
  | [] => []
  | [(k, v)] => jstrChars k ++ (':' :: ' ' :: dumps v)
  | (k, v) :: kv :: kvs =>
    ((jstrChars k ++ (':' :: ' ' :: dumps v)) ++ [',', ' ']) ++ dumpsObj (kv :: kvs)

end

/-- The newline-plus-indentation separator Python's encoder inserts at nesting
level `lvl` when called with `indent=2`. -/
def nlInd (lvl : ℕ) : List Char := '\n' :: List.replicate (2 * lvl) ' '

mutual

/-- `json.dumps(v, indent=2, ensure_ascii=False)` at nesting level `lvl`:
with an indent, Python's separators become `","` (items) and `": "`
(key/value), each container item sits on its own line, and empty containers
print as `[]` / `{}` with no newline. -/
def dumpsInd : ℕ → JVal → List Char
  | _, .jnull => ['n', 'u', 'l', 'l']
  | _, .jbool true => ['t', 'r', 'u', 'e']
  | _, .jbool false => ['f', 'a', 'l', 's', 'e']
  | _, .jint n => intChars n
  | _, .jstr s => jstrChars s
  | _, .jarr [] => ['[', ']']
  | lvl, .jarr (x :: xs) =>
    (('[' :: nlInd (lvl + 1)) ++ dumpsIndList (lvl + 1) (x :: xs)) ++ (nlInd lvl ++ [']'])
  | _, .jobj [] => [Char.ofNat 123, Char.ofNat 125]
  | lvl, .jobj (kv :: kvs) =>
    ((Char.ofNat 123 :: nlInd (lvl + 1)) ++ dumpsIndObj (lvl + 1) (kv :: kvs))
      ++ (nlInd lvl ++ [Char.ofNat 125])

/-- Pretty-printed array items, each preceded by its line's indentation. -/
def dumpsIndList : ℕ → List JVal → List Char
  | _, [] => []
  | lvl, [x] => dumpsInd lvl x
  | lvl, x :: y :: xs => ((dumpsInd lvl x ++ [',']) ++ nlInd lvl) ++ dumpsIndList lvl (y :: xs)

/-- Pretty-printed object entries. -/
def dumpsIndObj : ℕ → List (List Char × JVal) → List Char
  | _, [] => []
  | lvl, [(k, v)] => jstrChars k ++ (':' :: ' ' :: dumpsInd lvl v)
  | lvl, (k, v) :: kv :: kvs =>
    (((jstrChars k ++ (':' :: ' ' :: dumpsInd lvl v)) ++ [',']) ++ nlInd lvl)
      ++ dumpsIndObj lvl (kv :: kvs)

end

/-- `len(s.encode('utf-8'))` for a Python string. -/
def utf8Len (cs : List Char) : ℕ := (cs.map Char.utf8Size).sum

/-! ## The partitioner (`split_json.py`, `split_json_file`) -/

/-- `doc_json = json.dumps(doc, ensure_ascii=False)`;
`doc_size = len(doc_json.encode('utf-8')) + 3  # +3 for comma, newline, indent`. -/
def docSize (doc : JVal) : ℕ := utf8Len (dumps doc) + 3

/-- The `for doc in documents` loop of `split_json_file`, carrying
`current_chunk` and `current_size`; flushed chunks are returned in part-number
order (part 1 first), the trailing `if current_chunk` flush included.  The
flush branch folds the source's "reset to `[]` / 2 then append `doc`" into
directly continuing with chunk `[doc]` and size `2 + doc_size`. -/
def splitLoop (max_size_mb : ℚ) : List JVal → List JVal → ℕ → List (List JVal)
  | [], current_chunk, _ =>
    if current_chunk.isEmpty = false then [current_chunk] else []
  | doc :: docs, current_chunk, current_size =>
    if current_chunk.isEmpty = false ∧
        ((current_size + docSize doc : ℕ) : ℚ) / (1024 * 1024) > max_size_mb then
      current_chunk :: splitLoop max_size_mb docs [doc] (2 + docSize doc)
    else
      splitLoop max_size_mb docs (current_chunk ++ [doc]) (current_size + docSize doc)

/-- `split_json_file(input_file, max_size_mb)`, abstracted over the decoded
`documents` array; the result lists the written partitions in part order.
`current_size` starts at 2 for the `[]` brackets. -/
def split_json_file (documents : List JVal) (max_size_mb : ℚ) : List (List JVal) :=
  splitLoop max_size_mb documents [] 2

/-- The running byte estimate `split_json_file` associates to a chunk:
2 bracket bytes plus each record's compact UTF-8 length plus 3. -/
def estSizeN (chunk : List JVal) : ℕ := 2 + (chunk.map docSize).sum

/-- The byte ceiling corresponding to `max_size_mb` megabytes. -/
def ceilB (max_size_mb : ℚ) : ℚ := max_size_mb * (1024 * 1024)

/-- The byte size of the file actually written for a chunk:
`json.dump(current_chunk, f, indent=2, ensure_ascii=False)`. -/
def prettyFileSize (chunk : List JVal) : ℕ := utf8Len (dumpsInd 0 (JVal.jarr chunk))

/-- An order-preserving, contiguous, non-splitting partitioning of `docs`
whose every part keeps the running byte estimate at or under the ceiling. -/
def FeasibleEst (max_size_mb : ℚ) (docs : List JVal) (P : List (List JVal)) : Prop :=
  P.flatten = docs ∧ (∀ c ∈ P, c ≠ []) ∧ ∀ c ∈ P, (estSizeN c : ℚ) ≤ ceilB max_size_mb

/-- An order-preserving, contiguous, non-splitting partitioning of `docs`
whose every part's written (pretty-printed) byte size is at or under the
ceiling. -/
def FeasiblePretty (max_size_mb : ℚ) (docs : List JVal) (P : List (List JVal)) : Prop :=
  P.flatten = docs ∧ (∀ c ∈ P, c ≠ []) ∧ ∀ c ∈ P, (prettyFileSize c : ℚ) ≤ ceilB max_size_mb

/-! ## A matcher for the source's three regular expressions

Each source pattern is a concatenation of literal characters and one-or-more
repetitions of a single-character class (optionally capturing).  `matchToks`
matches a token list at the start of a string exactly as Python's backtracking
engine does: a `cls`/`grp` token first consumes the longest run of its class
and backs off one character at a time while the remaining tokens fail, so the
first success found is the one Python reports.  `reSearch` tries successive
start positions (leftmost match), `reFinditer` continues scanning right after
each match's end (non-overlapping, like `re.finditer`). -/

inductive Tok where
  | lit : Char → Tok
  | cls : (Char → Bool) → Tok
  | grp : (Char → Bool) → Tok

/-- Length of the longest run of characters satisfying `p` at the front. -/
def runLen (p : Char → Bool) : List Char → ℕ
  | [] => 0
  | c :: cs => if p c then runLen p cs + 1 else 0

/-- Backtracking loop for `cls p`: try consuming `j, j-1, ..., 1` characters
(greedy first) and continue with `next` on the remainder. -/
def tryCls (next : List Char → Option (ℕ × List (List Char))) (cs : List Char) :
    ℕ → Option (ℕ × List (List Char))
  | 0 => none
  | j + 1 =>
    match next (cs.drop (j + 1)) with
    | some (n, g) => some (j + 1 + n, g)
    | none => tryCls next cs j

/-- Backtracking loop for `grp p`: as `tryCls`, recording the consumed run as
a capture. -/
def tryGrp (next : List Char → Option (ℕ × List (List Char))) (cs : List Char) :
    ℕ → Option (ℕ × List (List Char))
  | 0 => none
  | j + 1 =>
    match next (cs.drop (j + 1)) with
    | some (n, g) => some (j + 1 + n, cs.take (j + 1) :: g)
    | none => tryGrp next cs j

/-- Match a token list at the start of `cs`; on success, the number of
characters consumed and the captures in group order. -/
def matchToks : List Tok → List Char → Option (ℕ × List (List Char))
  | [], _ => some (0, [])
  | Tok.lit _ :: _, [] => none
  | Tok.lit c :: ts, d :: cs =>
    if d = c then
      match matchToks ts cs with
      | some (n, g) => some (n + 1, g)
      | none => none
    else none
  | Tok.cls p :: ts, cs => tryCls (fun r => matchToks ts r) cs (runLen p cs)
  | Tok.grp p :: ts, cs => tryGrp (fun r => matchToks ts r) cs (runLen p cs)

/-- Try to match at position `i`, then `i+1`, ...; `re.search` from offset `i`.
On success returns `(start, length, captures)`. -/
def searchAux (toks : List Tok) : ℕ → List Char → Option (ℕ × ℕ × List (List Char))
  | i, [] =>
    match matchToks toks [] with
    | some (n, g) => some (i, n, g)
    | none => none
  | i, d :: cs2 =>
    match matchToks toks (d :: cs2) with
    | some (n, g) => some (i, n, g)
    | none => searchAux toks (i + 1) cs2

/-- `re.search(pattern, text)`. -/
def reSearch (toks : List Tok) (text : List Char) : Option (ℕ × ℕ × List (List Char)) :=
  searchAux toks 0 text

/-- Scanning loop of `re.finditer`: after a match at `start` of length `n`,
continue at position `start + n`.  `i` is the absolute position of `cs` inside
the full text; the fuel argument only bounds the number of matches and never
runs out on the patterns used here, which always consume at least one
character. -/
def finditerGo (toks : List Tok) : ℕ → ℕ → List Char → List (ℕ × ℕ × List (List Char))
  | 0, _, _ => []
  | fuel + 1, i, cs =>
    match searchAux toks i cs with
    | none => []
    | some (st, n, g) => (st, n, g) :: finditerGo toks fuel (st + n) (cs.drop (st + n - i))

/-- `list(re.finditer(pattern, text))` as `(start, length, captures)` triples. -/
def reFinditer (toks : List Tok) (text : List Char) : List (ℕ × ℕ × List (List Char)) :=
  finditerGo toks (text.length + 1) 0 text

/-! ## The segmenter (`prepare_for_meilisearch.py`) -/

/-- The ASCII content of Python's `str.isspace` / regex `\s`. -/
def isPySpace (c : Char) : Bool :=
  c = ' ' || c = '\t' || c = '\n' || c = '\r' || c = Char.ofNat 11 || c = Char.ofNat 12

/-- Regex `\d` (ASCII). -/
def reD (c : Char) : Bool := c.isDigit

/-- Regex `\w` (ASCII). -/
def reW (c : Char) : Bool := c.isAlphanum || c = '_'

/-- Character class `[\d:]`. -/
def reDigitColon (c : Char) : Bool := reD c || c = ':'

/-- Character class `[-\w]`. -/
def reDashWord (c : Char) : Bool := c = '-' || reW c

/-- Character class `[\d-]`. -/
def reDigitDash (c : Char) : Bool := reD c || c = '-'

/-- Character class `[\d/]`. -/
def reDigitSlash (c : Char) : Bool := reD c || c = '/'

/-- A sequence of literal tokens. -/
def litsOf (s : List Char) : List Tok := s.map Tok.lit

/-- `r'Case\s+[\d:]+[-\w]+'`, the pattern of `extract_case_number`. -/
def case_pattern : List Tok :=
  litsOf ("Case".toList) ++ [Tok.cls isPySpace, Tok.cls reDigitColon, Tok.cls reDashWord]

/-- `r'Page\s+(\d+)\s+of\s+(\d+)'`, the pattern of `extract_page_info`. -/
def page_info_pattern : List Tok :=
  litsOf ("Page".toList) ++ [Tok.cls isPySpace, Tok.grp reD, Tok.cls isPySpace]
    ++ litsOf ("of".toList) ++ [Tok.cls isPySpace, Tok.grp reD]

/-- All of `page_pattern` before its final `\d+`; kept separate so that the
full pattern is definitionally `page_pattern_front ++ [Tok.cls reD]`. -/
def page_pattern_front : List Tok :=
  litsOf ("Case".toList) ++ [Tok.cls isPySpace, Tok.cls reDigitColon, Tok.cls reDashWord,
      Tok.cls isPySpace]
    ++ litsOf ("Document".toList) ++ [Tok.cls isPySpace, Tok.cls reDigitDash, Tok.cls isPySpace]
    ++ litsOf ("Filed".toList) ++ [Tok.cls isPySpace, Tok.cls reDigitSlash, Tok.cls isPySpace]
    ++ litsOf ("Page".toList) ++ [Tok.cls isPySpace, Tok.cls reD, Tok.cls isPySpace]
    ++ litsOf ("of".toList) ++ [Tok.cls isPySpace]

/-- `r'Case\s+[\d:]+[-\w]+\s+Document\s+[\d-]+\s+Filed\s+[\d/]+\s+Page\s+\d+\s+of\s+\d+'`,
the page-marker pattern of `split_into_pages`. -/
def page_pattern : List Tok := page_pattern_front ++ [Tok.cls reD]

/-- Python `int(...)` on a non-empty string of decimal digits. -/
def digitsToNat (cs : List Char) : ℕ :=
  cs.foldl (fun a c => a * 10 + (c.toNat - 48)) 0

/-- `extract_case_number(text)`: `re.search` for `case_pattern`; on a match,
`match.group(0)` (the matched text). -/
def extract_case_number (text : List Char) : Option (List Char) :=
  match reSearch case_pattern text with
  | some (st, n, _) => some ((text.drop st).take n)
  | none => none

/-- `extract_page_info(text)`: `re.search` for `page_info_pattern`; on a
match, `(int(match.group(1)), int(match.group(2)))`, else `(None, None)`. -/
def extract_page_info (text : List Char) : Option ℕ × Option ℕ :=
  match reSearch page_info_pattern text with
  | some (_, _, [g1, g2]) => (some (digitsToNat g1), some (digitsToNat g2))
  | _ => (none, none)

/-- Python `str.lstrip()` (ASCII whitespace, see `isPySpace`). -/
def lstripPy (cs : List Char) : List Char := cs.dropWhile isPySpace

/-- Python `str.rstrip()`. -/
def rstripPy (cs : List Char) : List Char := (cs.reverse.dropWhile isPySpace).reverse

/-- Python `str.strip()`. -/
def pyStrip (cs : List Char) : List Char := rstripPy (lstripPy cs)

/-- The `(start_pos, end_pos)` pairs of the `for i, marker in enumerate(markers)`
loop: each marker's start paired with the next marker's start, the last with
`len(content)`. -/
def spans : List (ℕ × ℕ × List (List Char)) → ℕ → List (ℕ × ℕ)
  | [], _ => []
  | [m], total => [(m.1, total)]
  | m :: m2 :: ms, total => (m.1, m2.1) :: spans (m2 :: ms) total

/-- The end position `spans` assigns to marker `i`: the next marker's start,
or `total` for the last marker. -/
def spanEnd (markers : List (ℕ × ℕ × List (List Char))) (i total : ℕ) : ℕ :=
  match markers.drop (i + 1) with
  | m :: _ => m.1
  | [] => total

/-- `split_into_pages(content)`: with no marker the whole document is one page
(page info searched in the full text, content NOT stripped); otherwise one
page per marker, sliced from marker start to next marker start (or end of
text), stripped, with page info re-extracted from the stripped slice. -/
def split_into_pages (content : List Char) : List (List Char × Option ℕ × Option ℕ) :=
  let markers := reFinditer page_pattern content
  if markers.isEmpty then
    let pt := extract_page_info content
    [(content, pt.1, pt.2)]
  else
    (spans markers content.length).map fun se =>
      let page_content := pyStrip ((content.drop se.1).take (se.2 - se.1))
      let pt := extract_page_info page_content
      (page_content, pt.1, pt.2)

/-- One output record of `process_file` (the dict built per page). -/
structure MeiliDoc where
  id : List Char
  content : List Char
  document_id : List Char
  folder : List Char
  page_number : ℕ
  total_pages : Option ℕ
  case_number : Option (List Char)
  source_file : List Char
deriving DecidableEq

/-- Python's `page_num if page_num else idx + 1`: an `int` is falsy exactly
when it is 0, and `None` is falsy. -/
def pyOrElse (page_num : Option ℕ) (fallback : ℕ) : ℕ :=
  match page_num with
  | some n => if n = 0 then fallback else n
  | none => fallback

/-- Python `str(n)` for the f-string id suffix. -/
def natChars (n : ℕ) : List Char := Nat.toDigits 10 n

/-- `process_file(filepath, base_path)` after a successful read, abstracted
over the path-derived strings (`document_id`, `folder`, `source_file`) and the
file's decoded `content`. -/
def process_file (document_id folder source_file content : List Char) : List MeiliDoc :=
  let case_number := extract_case_number (content.take 500)
  let pages := split_into_pages content
  pages.enum.map fun ip =>
    let idx := ip.1
    let page_num := ip.2.2.1
    let pn := pyOrElse page_num (idx + 1)
    { id := (document_id ++ ('_' :: 'p' :: 'a' :: 'g' :: 'e' :: ['_'])) ++ natChars pn
      content := ip.2.1
      document_id := document_id
      folder := folder
      page_number := pn
      total_pages := ip.2.2.2
      case_number := case_number
      source_file := source_file }

/-! ## Auxiliary notions used by the theorems -/

/-- Declarative matching of a token list against a string: each literal
consumes its character and each class consumes a non-empty run of characters
of the class.  `matchToks` succeeds only with consumed text of this shape. -/
inductive TMatch : List Tok → List Char → Prop where
  | nil : TMatch [] []
  | lit (c : Char) (ts : List Tok) (s : List Char) :
      TMatch ts s → TMatch (Tok.lit c :: ts) (c :: s)
  | cls (p : Char → Bool) (ts : List Tok) (seg s : List Char) :
      seg ≠ [] → (∀ c ∈ seg, p c = true) → TMatch ts s → TMatch (Tok.cls p :: ts) (seg ++ s)
  | grp (p : Char → Bool) (ts : List Tok) (seg s : List Char) :
      seg ≠ [] → (∀ c ∈ seg, p c = true) → TMatch ts s → TMatch (Tok.grp p :: ts) (seg ++ s)

/-- The matches returned by the finditer scan, annotated with the least
position the next match may start at: starts are at or after `lo`, each match
really matches at its start, and later matches start at or after this match's
end (non-overlapping). -/
def GoodMatches (toks : List Tok) (text : List Char) : ℕ → List (ℕ × ℕ × List (List Char)) → Prop
  | _, [] => True
  | lo, m :: ms =>
    lo ≤ m.1 ∧ matchToks toks (text.drop m.1) = some (m.2.1, m.2.2) ∧
      GoodMatches toks text (m.1 + m.2.1) ms

/-- Remove the first `k` records from a partitioning, dropping any part that
becomes empty; used to turn a feasible partitioning of a list into one of a
suffix. -/
def dropPart : ℕ → List (List JVal) → List (List JVal)
  | _, [] => []
  | k, c :: P => if k < c.length then c.drop k :: P else dropPart (k - c.length) P

/-! ## Partitioner lemmas -/

theorem flushCond_iff (mb : ℚ) (a : ℕ) :
    (((a : ℕ) : ℚ) / (1024 * 1024) > mb) ↔ ceilB mb < (a : ℚ) := by
  rw [gt_iff_lt, lt_div_iff₀ (by norm_num : (0 : ℚ) < 1024 * 1024), ceilB]

theorem estSizeN_append (a b : List JVal) :
    estSizeN (a ++ b) = estSizeN a + (b.map docSize).sum := by
  simp [estSizeN]
  omega

theorem estSizeN_snoc (a : List JVal) (d : JVal) :
    estSizeN (a ++ [d]) = estSizeN a + docSize d := by
  simp [estSizeN_append]

theorem docSize_le_estSizeN {d : JVal} {c : List JVal} (hd : d ∈ c) :
    2 + docSize d ≤ estSizeN c := by
  have : docSize d ≤ (c.map docSize).sum :=
    List.single_le_sum (fun x _ => Nat.zero_le x) _ (List.mem_map_of_mem docSize hd)
  simp [estSizeN]
  omega

theorem splitLoop_flatten (mb : ℚ) :
    ∀ (docs chunk : List JVal) (size : ℕ),
      (splitLoop mb docs chunk size).flatten = chunk ++ docs := by
  intro docs
  induction docs with
  | nil =>
    intro chunk size
    cases chunk <;> simp [splitLoop]
  | cons d ds ih =>
    intro chunk size
    by_cases h : chunk.isEmpty = false ∧
        ((size + docSize d : ℕ) : ℚ) / (1024 * 1024) > mb
    · simp only [splitLoop, if_pos h]
      simp [ih]
    · simp only [splitLoop, if_neg h]
      simp [ih]

theorem splitLoop_nonempty (mb : ℚ) :
    ∀ (docs chunk : List JVal) (size : ℕ),
      ∀ c ∈ splitLoop mb docs chunk size, c ≠ [] := by
  intro docs
  induction docs with
  | nil =>
    intro chunk size c hc
    cases chunk with
    | nil => simp [splitLoop] at hc
    | cons x xs =>
      simp [splitLoop] at hc
      simp [hc]
  | cons d ds ih =>
    intro chunk size c hc
    by_cases h : chunk.isEmpty = false ∧
        ((size + docSize d : ℕ) : ℚ) / (1024 * 1024) > mb
    · simp only [splitLoop, if_pos h, List.mem_cons] at hc
      rcases hc with rfl | hc
      · simpa [List.isEmpty_iff] using h.1
      · exact ih _ _ c hc
    · simp only [splitLoop, if_neg h] at hc
      exact ih _ _ c hc

/-- Loop invariant of `split_json_file`: every flushed chunk with at least two
records has its running estimate at or under the ceiling, and any chunk
containing a record whose compact serialization alone exceeds the ceiling is
that single record. -/
theorem splitLoop_chunks_invariant (mb : ℚ) :
    ∀ (docs chunk : List JVal) (size : ℕ),
      size = estSizeN chunk →
      (2 ≤ chunk.length → (estSizeN chunk : ℚ) ≤ ceilB mb) →
      (∀ d ∈ chunk, ceilB mb < (utf8Len (dumps d) : ℚ) → chunk = [d]) →
      ∀ c ∈ splitLoop mb docs chunk size,
        (2 ≤ c.length → (estSizeN c : ℚ) ≤ ceilB mb) ∧
        (∀ d ∈ c, ceilB mb < (utf8Len (dumps d) : ℚ) → c = [d]) := by
  intro docs
  induction docs with
  | nil =>
    intro chunk size _ h2 h3 c hc
    cases chunk with
    | nil => simp [splitLoop] at hc
    | cons x xs =>
      simp [splitLoop] at hc
      subst hc
      exact ⟨h2, h3⟩
  | cons d ds ih =>
    intro chunk size hsz h2 h3 c hc
    by_cases h : chunk.isEmpty = false ∧
        ((size + docSize d : ℕ) : ℚ) / (1024 * 1024) > mb
    · simp only [splitLoop, if_pos h, List.mem_cons] at hc
      rcases hc with rfl | hc
      · exact ⟨h2, h3⟩
      · refine ih [d] (2 + docSize d) (by simp [estSizeN]) (by simp) ?_ c hc
        intro x hx _
        simp at hx
        simp [hx]
    · simp only [splitLoop, if_neg h] at hc
      rcases eq_or_ne chunk [] with h0 | h0
      · subst h0
        refine ih [d] (size + docSize d) ?_ (by simp) ?_ c hc
        · simp only [estSizeN, List.map_nil, List.sum_nil, Nat.add_zero] at hsz
          simp [estSizeN, hsz]
        · intro x hx _
          simp at hx
          simp [hx]
      · have hne : chunk.isEmpty = false := by
          cases chunk with
          | nil => exact absurd rfl h0
          | cons x xs => rfl
        have hnb : ¬ (((size + docSize d : ℕ) : ℚ) / (1024 * 1024) > mb) :=
          fun hb => h ⟨hne, hb⟩
        rw [flushCond_iff] at hnb
        have hleQ : ((size + docSize d : ℕ) : ℚ) ≤ ceilB mb := not_lt.mp hnb
        have hEq : estSizeN (chunk ++ [d]) = size + docSize d := by
          rw [estSizeN_snoc, hsz]
        have hle2 : (estSizeN (chunk ++ [d]) : ℚ) ≤ ceilB mb := by
          rw [hEq]
          exact_mod_cast hleQ
        refine ih (chunk ++ [d]) (size + docSize d) hEq.symm (fun _ => hle2) ?_ c hc
        intro x hx hbig
        exfalso
        have h1 : 2 + docSize x ≤ estSizeN (chunk ++ [d]) := docSize_le_estSizeN hx
        have h1Q : ((2 + docSize x : ℕ) : ℚ) ≤ (estSizeN (chunk ++ [d]) : ℚ) := by
          exact_mod_cast h1
        have h2Q : (docSize x : ℚ) = (utf8Len (dumps x) : ℚ) + 3 := by
          simp [docSize]
        push_cast at h1Q
        linarith

theorem estSizeN_of_isPre {a b : List JVal} (hab : a <+: b) : estSizeN a ≤ estSizeN b := by
  rcases hab with ⟨t, rfl⟩
  rw [estSizeN_append]
  omega

theorem estSizeN_of_drop (c : List JVal) (k : ℕ) : estSizeN (c.drop k) ≤ estSizeN c := by
  conv_rhs => rw [← List.take_append_drop k c]
  rw [estSizeN_append]
  simp [estSizeN]

/-- Decomposition of a run of the loop from a non-empty open chunk: some
prefix `pre` of the remaining docs is absorbed into the open chunk, that chunk
is emitted first, the loop restarts fresh on `rest`, and—unless the input ran
out—the first record of `rest` would have pushed the emitted chunk's estimate
over the ceiling (the greedy chunk is a maximal feasible prefix). -/
theorem splitLoop_decompose (mb : ℚ) :
    ∀ (docs chunk : List JVal) (size : ℕ),
      chunk ≠ [] → size = estSizeN chunk →
      ∃ pre rest, docs = pre ++ rest ∧
        splitLoop mb docs chunk size = (chunk ++ pre) :: splitLoop mb rest [] 2 ∧
        (rest = [] ∨ ∃ r rs, rest = r :: rs ∧
          ceilB mb < (estSizeN (chunk ++ pre) : ℚ) + (docSize r : ℚ)) := by
  intro docs
  induction docs with
  | nil =>
    intro chunk size hch _
    refine ⟨[], [], by simp, ?_, Or.inl rfl⟩
    have hne : chunk.isEmpty = false := by
      cases chunk with
      | nil => exact absurd rfl hch
      | cons x xs => rfl
    simp [splitLoop, hne]
  | cons d ds ih =>
    intro chunk size hch hsz
    have hne : chunk.isEmpty = false := by
      cases chunk with
      | nil => exact absurd rfl hch
      | cons x xs => rfl
    by_cases h : chunk.isEmpty = false ∧
        ((size + docSize d : ℕ) : ℚ) / (1024 * 1024) > mb
    · refine ⟨[], d :: ds, by simp, ?_, ?_⟩
      · simp only [splitLoop, if_pos h]
        simp
      · refine Or.inr ⟨d, ds, rfl, ?_⟩
        have hb := h.2
        rw [flushCond_iff] at hb
        rw [List.append_nil, ← hsz]
        push_cast at hb ⊢
        linarith
    · simp only [splitLoop, if_neg h]
      obtain ⟨pre, rest, hds, hsplit, hmax⟩ :=
        ih (chunk ++ [d]) (size + docSize d) (by simp) (by rw [estSizeN_snoc, hsz])
      refine ⟨d :: pre, rest, by simp [hds], ?_, ?_⟩
      · rw [hsplit]
        simp
      · rcases hmax with hrest | ⟨r, rs, hr, hineq⟩
        · exact Or.inl hrest
        · refine Or.inr ⟨r, rs, hr, ?_⟩
          simpa using hineq

theorem dropPart_flatten :
    ∀ (P : List (List JVal)) (k : ℕ), (dropPart k P).flatten = P.flatten.drop k := by
  intro P
  induction P with
  | nil => simp [dropPart]
  | cons c P ih =>
    intro k
    by_cases hk : k < c.length
    · simp only [dropPart, if_pos hk, List.flatten_cons]
      rw [List.drop_append_eq_append_drop]
      have : k - c.length = 0 := by omega
      simp [this]
    · simp only [dropPart, if_neg hk, List.flatten_cons]
      rw [ih, List.drop_append_eq_append_drop]
      have : c.drop k = [] := by
        apply List.drop_eq_nil_of_le
        omega
      simp [this]

theorem dropPart_length_le : ∀ (P : List (List JVal)) (k : ℕ),
    (dropPart k P).length ≤ P.length := by
  intro P
  induction P with
  | nil => simp [dropPart]
  | cons c P ih =>
    intro k
    by_cases hk : k < c.length
    · simp [dropPart, hk]
    · simp only [dropPart, if_neg hk]
      exact le_trans (ih _) (by simp)

theorem dropPart_parts (B : ℚ) : ∀ (P : List (List JVal)) (k : ℕ),
    (∀ c ∈ P, c ≠ []) → (∀ c ∈ P, (estSizeN c : ℚ) ≤ B) →
    ∀ c2 ∈ dropPart k P, c2 ≠ [] ∧ (estSizeN c2 : ℚ) ≤ B := by
  intro P
  induction P with
  | nil => simp [dropPart]
  | cons c P ih =>
    intro k hne hsz c2 hc2
    by_cases hk : k < c.length
    · simp only [dropPart, if_pos hk, List.mem_cons] at hc2
      rcases hc2 with rfl | hc2
      · constructor
        · intro hnil
          have := congrArg List.length hnil
          simp at this
          omega
        · refine le_trans ?_ (hsz c (by simp))
          exact_mod_cast estSizeN_of_drop c k
      · exact ⟨hne c2 (by simp [hc2]), hsz c2 (by simp [hc2])⟩
    · simp only [dropPart, if_neg hk] at hc2
      exact ih _ (fun x hx => hne x (by simp [hx])) (fun x hx => hsz x (by simp [hx])) c2 hc2

/-- Bounded induction for minimality: the greedy output is never longer than
any feasible (estimate-bounded) partitioning. -/
theorem split_min_aux (mb : ℚ) :
    ∀ (N : ℕ) (docs : List JVal), docs.length ≤ N →
      ∀ P, FeasibleEst mb docs P → (split_json_file docs mb).length ≤ P.length := by
  intro N
  induction N with
  | zero =>
    intro docs hlen P _
    have : docs = [] := by
      cases docs with
      | nil => rfl
      | cons x xs => simp at hlen
    subst this
    simp [split_json_file, splitLoop]
  | succ N ihN =>
    intro docs hlen P hP
    cases docs with
    | nil => simp [split_json_file, splitLoop]
    | cons d ds =>
      have hstep : split_json_file (d :: ds) mb = splitLoop mb ds [d] (2 + docSize d) := by
        simp [split_json_file, splitLoop]
      obtain ⟨pre, rest, hds, hsplit, hmax⟩ :=
        splitLoop_decompose mb ds [d] (2 + docSize d) (by simp) (by simp [estSizeN])
      obtain ⟨hjoin, hne, hsz⟩ := hP
      cases P with
      | nil => simp at hjoin
      | cons p1 P2 =>
        have hp1ne : p1 ≠ [] := hne p1 (by simp)
        have hp1sz : (estSizeN p1 : ℚ) ≤ ceilB mb := hsz p1 (by simp)
        have hjoin2 : p1 ++ P2.flatten = d :: ds := by simpa using hjoin
        have hg1 : (d :: pre) ++ rest = d :: ds := by simp [hds]
        have hlen1 : p1.length ≤ (d :: pre).length := by
          by_contra hgt
          push_neg at hgt
          rcases hmax with hrest | ⟨r, rs, hr, hineq⟩
          · subst hrest
            have h1 : p1.length ≤ (d :: ds).length := by
              rw [← hjoin2]
              simp
            have h2 : (d :: pre).length = (d :: ds).length := by
              rw [← hg1]
              simp
            omega
          · subst hr
            have hpre1 : ((d :: pre) ++ [r]) <+: (d :: ds) := by
              refine ⟨rs, ?_⟩
              rw [← hg1]
              simp
            have hpre2 : p1 <+: (d :: ds) := ⟨P2.flatten, hjoin2⟩
            have hpp : ((d :: pre) ++ [r]) <+: p1 := by
              refine List.prefix_of_prefix_length_le hpre1 hpre2 ?_
              simp only [List.length_append, List.length_cons, List.length_nil] at hgt ⊢
              omega
            have hmono : estSizeN ((d :: pre) ++ [r]) ≤ estSizeN p1 :=
              estSizeN_of_isPre hpp
            rw [estSizeN_snoc] at hmono
            have hmonoQ : ((estSizeN (d :: pre) + docSize r : ℕ) : ℚ) ≤ (estSizeN p1 : ℚ) := by
              exact_mod_cast hmono
            have hineq2 : ceilB mb < (estSizeN (d :: pre) : ℚ) + (docSize r : ℚ) := by
              simpa using hineq
            push_cast at hmonoQ
            linarith
        have hrest_eq : rest = P2.flatten.drop ((d :: pre).length - p1.length) := by
          have h1 : rest = ((d :: pre) ++ rest).drop (d :: pre).length := by
            simp
          rw [hg1, ← hjoin2] at h1
          rw [h1, List.drop_append_eq_append_drop]
          have : p1.drop (d :: pre).length = [] := by
            apply List.drop_eq_nil_of_le
            simpa using hlen1
          simp only [this, List.nil_append]
        have hfeas : FeasibleEst mb rest (dropPart ((d :: pre).length - p1.length) P2) := by
          refine ⟨?_, ?_, ?_⟩
          · rw [dropPart_flatten, ← hrest_eq]
          · intro c hc
            exact (dropPart_parts (ceilB mb) P2 _ (fun x hx => hne x (by simp [hx]))
              (fun x hx => hsz x (by simp [hx])) c hc).1
          · intro c hc
            exact (dropPart_parts (ceilB mb) P2 _ (fun x hx => hne x (by simp [hx]))
              (fun x hx => hsz x (by simp [hx])) c hc).2
        have hlen2 : rest.length ≤ N := by
          have h1 : ds.length ≤ N := by
            have h0 := hlen
            simp only [List.length_cons] at h0
            omega
          have h2 : rest.length ≤ ds.length := by
            rw [hds]
            simp
          omega
        have hrec := ihN rest hlen2 _ hfeas
        have hdp : (dropPart ((d :: pre).length - p1.length) P2).length ≤ P2.length :=
          dropPart_length_le P2 _
        rw [hstep, hsplit]
        have : splitLoop mb rest [] 2 = split_json_file rest mb := rfl
        rw [this]
        simp only [List.length_cons]
        omega

theorem singleton_fits_of_feasible {mb : ℚ} {docs : List JVal} {P : List (List JVal)}
    (hP : FeasibleEst mb docs P) :
    ∀ d ∈ docs, (estSizeN [d] : ℚ) ≤ ceilB mb := by
  intro d hd
  obtain ⟨hjoin, _, hsz⟩ := hP
  rw [← hjoin] at hd
  obtain ⟨c, hc, hdc⟩ := List.mem_flatten.mp hd
  have h1 : 2 + docSize d ≤ estSizeN c := docSize_le_estSizeN hdc
  have h2 : estSizeN [d] = 2 + docSize d := by simp [estSizeN]
  have h3 : (estSizeN [d] : ℚ) ≤ (estSizeN c : ℚ) := by
    rw [h2]
    exact_mod_cast h1
  exact le_trans h3 (hsz c hc)

theorem splitLoop_chunks_le (mb : ℚ) :
    ∀ (docs chunk : List JVal) (size : ℕ),
      size = estSizeN chunk →
      (∀ d ∈ docs, (estSizeN [d] : ℚ) ≤ ceilB mb) →
      (chunk = [] ∨ (estSizeN chunk : ℚ) ≤ ceilB mb) →
      ∀ c ∈ splitLoop mb docs chunk size, (estSizeN c : ℚ) ≤ ceilB mb := by
  intro docs
  induction docs with
  | nil =>
    intro chunk size _ _ hbd c hc
    cases chunk with
    | nil => simp [splitLoop] at hc
    | cons x xs =>
      simp [splitLoop] at hc
      subst hc
      rcases hbd with h0 | h0
      · exact absurd h0 (by simp)
      · exact h0
  | cons d ds ih =>
    intro chunk size hsz hfit hbd c hc
    have hfit2 : ∀ x ∈ ds, (estSizeN [x] : ℚ) ≤ ceilB mb :=
      fun x hx => hfit x (by simp [hx])
    have hfitd : (estSizeN [d] : ℚ) ≤ ceilB mb := hfit d (by simp)
    by_cases h : chunk.isEmpty = false ∧
        ((size + docSize d : ℕ) : ℚ) / (1024 * 1024) > mb
    · simp only [splitLoop, if_pos h, List.mem_cons] at hc
      rcases hc with rfl | hc
      · rcases hbd with h0 | h0
        · rw [h0] at h
          simp at h
        · exact h0
      · exact ih [d] (2 + docSize d) (by simp [estSizeN]) hfit2 (Or.inr hfitd) c hc
    · simp only [splitLoop, if_neg h] at hc
      rcases eq_or_ne chunk [] with h0 | h0
      · subst h0
        refine ih [d] (size + docSize d) ?_ hfit2 (Or.inr hfitd) c hc
        simp only [estSizeN, List.map_nil, List.sum_nil, Nat.add_zero] at hsz
        simp [estSizeN, hsz]
      · have hne : chunk.isEmpty = false := by
          cases chunk with
          | nil => exact absurd rfl h0
          | cons x xs => rfl
        have hnb : ¬ (((size + docSize d : ℕ) : ℚ) / (1024 * 1024) > mb) :=
          fun hb => h ⟨hne, hb⟩
        rw [flushCond_iff] at hnb
        have hleQ : ((size + docSize d : ℕ) : ℚ) ≤ ceilB mb := not_lt.mp hnb
        have hEq : estSizeN (chunk ++ [d]) = size + docSize d := by
          rw [estSizeN_snoc, hsz]
        refine ih (chunk ++ [d]) (size + docSize d) hEq.symm hfit2 (Or.inr ?_) c hc
        rw [hEq]
        exact_mod_cast hleQ

theorem split_output_feasible (mb : ℚ) (docs : List JVal)
    (hfit : ∀ d ∈ docs, (estSizeN [d] : ℚ) ≤ ceilB mb) :
    FeasibleEst mb docs (split_json_file docs mb) := by
  refine ⟨?_, ?_, ?_⟩
  · simpa using splitLoop_flatten mb docs [] 2
  · exact splitLoop_nonempty mb docs [] 2
  · exact splitLoop_chunks_le mb docs [] 2 (by simp [estSizeN]) hfit (Or.inl rfl)

/-! ## Concrete partitioner runs used by witnesses and counterexamples -/

theorem docSize_jint1 : docSize (JVal.jint 1) = 4 := by decide

theorem docSize_jint2 : docSize (JVal.jint 2) = 4 := by decide

/-- With a 10-byte ceiling, the two scalar records `1` and `2` are packed into
a single partition: the running estimate reaches exactly 2 + 4 + 4 = 10. -/
theorem split_example₁ :
    split_json_file [JVal.jint 1, JVal.jint 2] (5 / 524288) = [[JVal.jint 1, JVal.jint 2]] := by
  rw [split_json_file]
  simp only [splitLoop, docSize_jint1, docSize_jint2]
  norm_num

theorem docSize_jint7 : docSize (JVal.jint 7) = 4 := by decide

theorem docSize_jstr8 : docSize (JVal.jstr ("abcdefgh".toList)) = 13 := by decide

/-- With a 5-byte ceiling, an 10-byte record is flushed into a partition of
its own between the two scalar records. -/
theorem split_example₂ :
    split_json_file [JVal.jint 7, JVal.jstr ("abcdefgh".toList), JVal.jint 7] (5 / 1048576) =
      [[JVal.jint 7], [JVal.jstr ("abcdefgh".toList)], [JVal.jint 7]] := by
  rw [split_json_file]
  simp only [splitLoop, docSize_jint7, docSize_jstr8]
  norm_num

theorem prettyFileSize_pair : prettyFileSize [JVal.jint 1, JVal.jint 2] = 12 := by decide

theorem prettyFileSize_single1 : prettyFileSize [JVal.jint 1] = 7 := by decide

theorem prettyFileSize_single2 : prettyFileSize [JVal.jint 2] = 7 := by decide

/-! ## Claim theorems for the partitioner -/

/-- C1: concatenating the partitions produced by `split_json_file` in
partition-number order reproduces exactly the original record sequence — same
records, same order (hence the same multiset of `id` values, and no record is
dropped, duplicated, or split across files). -/
theorem partition_round_trip (documents : List JVal) (max_size_mb : ℚ) :
    (split_json_file documents max_size_mb).flatten = documents := by
  simpa using splitLoop_flatten max_size_mb documents [] 2

/-- C2, counterexample: with ceiling 10 bytes (`max_size_mb = 5/524288`, a
dyadic value exactly representable as a Python float), the two records `1` and
`2` are packed into one partition whose running estimate is exactly 10, but
the file actually written (`json.dump(..., indent=2)`) is 12 bytes — over the
ceiling — and the partition has two records, neither of which is oversized, so
the claim's single-oversized-record exemption does not apply. -/
theorem partition_written_size_counterexample :
    ¬ (∀ c ∈ split_json_file [JVal.jint 1, JVal.jint 2] (5 / 524288),
        (∃ d, c = [d] ∧ ceilB (5 / 524288) < (utf8Len (dumps d) : ℚ)) ∨
          (prettyFileSize c : ℚ) ≤ ceilB (5 / 524288)) := by
  intro hclaim
  have hmem : [JVal.jint 1, JVal.jint 2] ∈
      split_json_file [JVal.jint 1, JVal.jint 2] (5 / 524288) := by
    rw [split_example₁]
    simp
  rcases hclaim _ hmem with ⟨d, hd, _⟩ | hle
  · exact absurd (congrArg List.length hd) (by simp)
  · rw [prettyFileSize_pair] at hle
    rw [ceilB] at hle
    norm_num at hle

/-- C2, amended: every partition written by `split_json_file` either consists
of a single record or keeps the partitioner's own running byte estimate
(2 bracket bytes plus, per record, its compact serialization's UTF-8 length
plus 3) at or under the ceiling; the pretty-printed size of the written file
may exceed the ceiling. -/
theorem partition_estimate_bound (documents : List JVal) (max_size_mb : ℚ) :
    ∀ c ∈ split_json_file documents max_size_mb,
      2 ≤ c.length → (estSizeN c : ℚ) ≤ ceilB max_size_mb := by
  intro c hc h2
  exact (splitLoop_chunks_invariant max_size_mb documents [] 2 (by simp [estSizeN])
    (by simp) (by simp) c hc).1 h2

/-- Witness for C2's amended bound at the concrete input of the
counterexample: the single emitted partition has two records and estimate
10 ≤ 10. -/
theorem partition_estimate_bound_witness :
    [JVal.jint 1, JVal.jint 2] ∈ split_json_file [JVal.jint 1, JVal.jint 2] (5 / 524288) ∧
      2 ≤ ([JVal.jint 1, JVal.jint 2] : List JVal).length ∧
      (estSizeN [JVal.jint 1, JVal.jint 2] : ℚ) ≤ ceilB (5 / 524288) := by
  have hmem : [JVal.jint 1, JVal.jint 2] ∈
      split_json_file [JVal.jint 1, JVal.jint 2] (5 / 524288) := by
    rw [split_example₁]
    simp
  exact ⟨hmem, by simp,
    partition_estimate_bound [JVal.jint 1, JVal.jint 2] (5 / 524288) _ hmem (by simp)⟩

/-- C4: a record whose own compact serialization already exceeds the ceiling
is still written, and always alone: any partition containing such a record is
exactly that one record, and every such record of the input shows up as a
singleton partition — never dropped, never split. -/
theorem oversized_record_isolated (documents : List JVal) (max_size_mb : ℚ) :
    (∀ c ∈ split_json_file documents max_size_mb,
      ∀ d ∈ c, ceilB max_size_mb < (utf8Len (dumps d) : ℚ) → c = [d]) ∧
    (∀ d ∈ documents, ceilB max_size_mb < (utf8Len (dumps d) : ℚ) →
      [d] ∈ split_json_file documents max_size_mb) := by
  have hmain : ∀ c ∈ split_json_file documents max_size_mb,
      ∀ d ∈ c, ceilB max_size_mb < (utf8Len (dumps d) : ℚ) → c = [d] := by
    intro c hc d hd hbig
    exact (splitLoop_chunks_invariant max_size_mb documents [] 2 (by simp [estSizeN])
      (by simp) (by simp) c hc).2 d hd hbig
  refine ⟨hmain, ?_⟩
  intro d hd hbig
  have hflat : (split_json_file documents max_size_mb).flatten = documents := by
    simpa using splitLoop_flatten max_size_mb documents [] 2
  rw [← hflat] at hd
  obtain ⟨c, hc, hdc⟩ := List.mem_flatten.mp hd
  have := hmain c hc d hdc hbig
  rw [← this]
  exact hc

/-- Witness for C4 at a concrete input: with ceiling 5 bytes, the 10-byte
record `"abcdefgh"` is written as the sole record of its own partition. -/
theorem oversized_record_isolated_witness :
    (JVal.jstr ("abcdefgh".toList) ∈
        [JVal.jint 7, JVal.jstr ("abcdefgh".toList), JVal.jint 7] ∧
      ceilB (5 / 1048576) < (utf8Len (dumps (JVal.jstr ("abcdefgh".toList))) : ℚ)) ∧
    [JVal.jstr ("abcdefgh".toList)] ∈
      split_json_file [JVal.jint 7, JVal.jstr ("abcdefgh".toList), JVal.jint 7] (5 / 1048576) := by
  have hmem : JVal.jstr ("abcdefgh".toList) ∈
      [JVal.jint 7, JVal.jstr ("abcdefgh".toList), JVal.jint 7] := by simp
  have hbig : ceilB (5 / 1048576) < (utf8Len (dumps (JVal.jstr ("abcdefgh".toList))) : ℚ) := by
    have h10 : utf8Len (dumps (JVal.jstr ("abcdefgh".toList))) = 10 := by decide
    rw [h10, ceilB]
    norm_num
  exact ⟨⟨hmem, hbig⟩,
    (oversized_record_isolated [JVal.jint 7, JVal.jstr ("abcdefgh".toList), JVal.jint 7]
      (5 / 1048576)).2 _ hmem hbig⟩

/-- C5, counterexample: with ceiling 10 bytes (`max_size_mb = 5/524288`), the
partitioner emits the single partition `[[1, 2]]`, but the minimum number of
order-preserving contiguous partitionings whose every file's *written*
(pretty-printed) size is at or under the ceiling is 2: the split `[[1], [2]]`
(7 bytes per file) is feasible, while any one-part partitioning must be the
whole 12-byte array.  So the produced count 1 is not that minimum. -/
theorem partition_minimal_counterexample :
    (split_json_file [JVal.jint 1, JVal.jint 2] (5 / 524288)).length = 1 ∧
    FeasiblePretty (5 / 524288) [JVal.jint 1, JVal.jint 2] [[JVal.jint 1], [JVal.jint 2]] ∧
    ∀ P, FeasiblePretty (5 / 524288) [JVal.jint 1, JVal.jint 2] P → 2 ≤ P.length := by
  refine ⟨by rw [split_example₁]; rfl, ?_, ?_⟩
  · refine ⟨by simp, ?_, ?_⟩
    · intro c hc
      simp only [List.mem_cons, List.mem_singleton, List.not_mem_nil, or_false] at hc
      rcases hc with rfl | rfl <;> simp
    · intro c hc
      have h10 : ceilB (5 / 524288) = 10 := by
        rw [ceilB]
        norm_num
      simp only [List.mem_cons, List.mem_singleton, List.not_mem_nil, or_false] at hc
      rcases hc with rfl | rfl
      · rw [prettyFileSize_single1, h10]
        norm_num
      · rw [prettyFileSize_single2, h10]
        norm_num
  · intro P hP
    obtain ⟨hjoin, _, hsz⟩ := hP
    rcases P with _ | ⟨c, P2⟩
    · simp at hjoin
    · rcases P2 with _ | ⟨c2, P3⟩
      · exfalso
        simp only [List.flatten_cons, List.flatten_nil, List.append_nil] at hjoin
        subst hjoin
        have h12 := hsz [JVal.jint 1, JVal.jint 2] (by simp)
        rw [prettyFileSize_pair] at h12
        rw [ceilB] at h12
        norm_num at h12
      · simp

/-- C5, amended: whenever any order-preserving contiguous non-splitting
partitioning bounded by the partitioner's own running byte estimate exists at
all, the partitioner's output is such a partitioning and its number of
partitions is minimal among them.  (Relative to the claim, "serialized size"
must be read as the running estimate rather than the written pretty-printed
size, per the C2 counterexample.) -/
theorem partition_count_minimal (documents : List JVal) (max_size_mb : ℚ)
    (P : List (List JVal)) (hP : FeasibleEst max_size_mb documents P) :
    FeasibleEst max_size_mb documents (split_json_file documents max_size_mb) ∧
      (split_json_file documents max_size_mb).length ≤ P.length := by
  constructor
  · exact split_output_feasible max_size_mb documents (singleton_fits_of_feasible hP)
  · exact split_min_aux max_size_mb documents.length documents le_rfl P hP

/-- Witness for C5's amended minimality at a concrete input: `[[1], [2]]` is
an estimate-feasible partitioning at ceiling 10, and the output `[[1, 2]]` is
feasible and not longer. -/
theorem partition_count_minimal_witness :
    FeasibleEst (5 / 524288) [JVal.jint 1, JVal.jint 2] [[JVal.jint 1], [JVal.jint 2]] ∧
      (FeasibleEst (5 / 524288) [JVal.jint 1, JVal.jint 2]
          (split_json_file [JVal.jint 1, JVal.jint 2] (5 / 524288)) ∧
        (split_json_file [JVal.jint 1, JVal.jint 2] (5 / 524288)).length ≤
          ([[JVal.jint 1], [JVal.jint 2]] : List (List JVal)).length) := by
  have h10 : ceilB (5 / 524288) = 10 := by
    rw [ceilB]
    norm_num
  have hest1 : estSizeN [JVal.jint 1] = 6 := by decide
  have hest2 : estSizeN [JVal.jint 2] = 6 := by decide
  have hfeas : FeasibleEst (5 / 524288) [JVal.jint 1, JVal.jint 2]
      [[JVal.jint 1], [JVal.jint 2]] := by
    refine ⟨by simp, ?_, ?_⟩
    · intro c hc
      simp only [List.mem_cons, List.mem_singleton, List.not_mem_nil, or_false] at hc
      rcases hc with rfl | rfl <;> simp
    · intro c hc
      simp only [List.mem_cons, List.mem_singleton, List.not_mem_nil, or_false] at hc
      rcases hc with rfl | rfl
      · rw [hest1, h10]
        norm_num
      · rw [hest2, h10]
        norm_num
  exact ⟨hfeas, partition_count_minimal [JVal.jint 1, JVal.jint 2] (5 / 524288) _ hfeas⟩

/-- C10: every partition file the partitioner writes contains at least one
record, and on the empty input array no partition file is written at all. -/
theorem partitions_nonempty (documents : List JVal) (max_size_mb : ℚ) :
    (∀ c ∈ split_json_file documents max_size_mb, c ≠ []) ∧
      split_json_file [] max_size_mb = [] := by
  constructor
  · exact splitLoop_nonempty max_size_mb documents [] 2
  · simp [split_json_file, splitLoop]

/-- Witness for C10 at a concrete input: the one partition produced from a
one-record array is that non-empty record list. -/
theorem partitions_nonempty_witness :
    [JVal.jint 1] ∈ split_json_file [JVal.jint 1] 1 ∧ ([JVal.jint 1] : List JVal) ≠ [] := by
  have hmem : [JVal.jint 1] ∈ split_json_file [JVal.jint 1] 1 := by
    simp [split_json_file, splitLoop]
  exact ⟨hmem, (partitions_nonempty [JVal.jint 1] 1).1 _ hmem⟩

/-! ## Matcher lemmas -/

theorem runLen_le_length (p : Char → Bool) : ∀ cs : List Char, runLen p cs ≤ cs.length := by
  intro cs
  induction cs with
  | nil => simp [runLen]
  | cons c cs ih =>
    by_cases h : p c
    · simp only [runLen, if_pos h, List.length_cons]
      omega
    · simp [runLen, h]

theorem sat_of_le_runLen (p : Char → Bool) :
    ∀ (cs : List Char) (i : ℕ), i ≤ runLen p cs → ∀ c ∈ cs.take i, p c = true := by
  intro cs
  induction cs with
  | nil =>
    intro i _ c hc
    simp at hc
  | cons d cs ih =>
    intro i hi c hc
    by_cases h : p d
    · simp only [runLen, if_pos h] at hi
      cases i with
      | zero => simp at hc
      | succ j =>
        rw [List.take_succ_cons] at hc
        rcases List.mem_cons.mp hc with rfl | hc2
        · exact h
        · exact ih j (by omega) c hc2
    · simp only [runLen, if_neg h] at hi
      have : i = 0 := by omega
      subst this
      simp at hc

theorem tryCls_some (next : List Char → Option (ℕ × List (List Char))) (cs : List Char) :
    ∀ (j m : ℕ) (g : List (List Char)), tryCls next cs j = some (m, g) →
      ∃ j2 n2, 1 ≤ j2 ∧ j2 ≤ j ∧ next (cs.drop j2) = some (n2, g) ∧ m = j2 + n2 := by
  intro j
  induction j with
  | zero =>
    intro m g h
    simp [tryCls] at h
  | succ j ih =>
    intro m g h
    cases hnext : next (cs.drop (j + 1)) with
    | some r =>
      obtain ⟨n2, g2⟩ := r
      simp only [tryCls, hnext, Option.some.injEq, Prod.mk.injEq] at h
      exact ⟨j + 1, n2, by omega, le_rfl, by rw [hnext, h.2], by omega⟩
    | none =>
      simp only [tryCls, hnext] at h
      obtain ⟨j2, n2, h1, h2, h3, h4⟩ := ih m g h
      exact ⟨j2, n2, h1, by omega, h3, h4⟩

theorem tryGrp_some (next : List Char → Option (ℕ × List (List Char))) (cs : List Char) :
    ∀ (j m : ℕ) (g : List (List Char)), tryGrp next cs j = some (m, g) →
      ∃ j2 n2 g2, 1 ≤ j2 ∧ j2 ≤ j ∧ next (cs.drop j2) = some (n2, g2) ∧ m = j2 + n2 ∧
        g = cs.take j2 :: g2 := by
  intro j
  induction j with
  | zero =>
    intro m g h
    simp [tryGrp] at h
  | succ j ih =>
    intro m g h
    cases hnext : next (cs.drop (j + 1)) with
    | some r =>
      obtain ⟨n2, g2⟩ := r
      simp only [tryGrp, hnext, Option.some.injEq, Prod.mk.injEq] at h
      exact ⟨j + 1, n2, g2, by omega, le_rfl, hnext, by omega, h.2.symm⟩
    | none =>
      simp only [tryGrp, hnext] at h
      obtain ⟨j2, n2, g2, h1, h2, h3, h4, h5⟩ := ih m g h
      exact ⟨j2, n2, g2, h1, by omega, h3, h4, h5⟩

theorem matchToks_le_length :
    ∀ (ts : List Tok) (cs : List Char) (n : ℕ) (g : List (List Char)),
      matchToks ts cs = some (n, g) → n ≤ cs.length := by
  intro ts
  induction ts with
  | nil =>
    intro cs n g h
    simp only [matchToks, Option.some.injEq, Prod.mk.injEq] at h
    omega
  | cons t ts ih =>
    cases t with
    | lit c =>
      intro cs n g h
      cases cs with
      | nil => simp [matchToks] at h
      | cons d cs2 =>
        simp only [matchToks] at h
        by_cases hd : d = c
        · rw [if_pos hd] at h
          cases hm : matchToks ts cs2 with
          | none => rw [hm] at h; simp at h
          | some r =>
            obtain ⟨n2, g2⟩ := r
            rw [hm] at h
            simp only [Option.some.injEq, Prod.mk.injEq] at h
            have := ih cs2 n2 g2 hm
            simp only [List.length_cons]
            omega
        · rw [if_neg hd] at h
          simp at h
    | cls p =>
      intro cs n g h
      simp only [matchToks] at h
      obtain ⟨j2, n2, h1, h2, h3, h4⟩ := tryCls_some _ cs (runLen p cs) n g h
      have h5 := ih _ _ _ h3
      have h6 : j2 ≤ cs.length := le_trans h2 (runLen_le_length p cs)
      simp only [List.length_drop] at h5
      omega
    | grp p =>
      intro cs n g h
      simp only [matchToks] at h
      obtain ⟨j2, n2, g2, h1, h2, h3, h4, h5⟩ := tryGrp_some _ cs (runLen p cs) n g h
      have h5b := ih _ _ _ h3
      have h6 : j2 ≤ cs.length := le_trans h2 (runLen_le_length p cs)
      simp only [List.length_drop] at h5b
      omega

theorem matchToks_sound :
    ∀ (ts : List Tok) (cs : List Char) (n : ℕ) (g : List (List Char)),
      matchToks ts cs = some (n, g) → TMatch ts (cs.take n) := by
  intro ts
  induction ts with
  | nil =>
    intro cs n g h
    simp only [matchToks, Option.some.injEq, Prod.mk.injEq] at h
    rw [← h.1]
    exact TMatch.nil
  | cons t ts ih =>
    cases t with
    | lit c =>
      intro cs n g h
      cases cs with
      | nil => simp [matchToks] at h
      | cons d cs2 =>
        simp only [matchToks] at h
        by_cases hd : d = c
        · rw [if_pos hd] at h
          cases hm : matchToks ts cs2 with
          | none => rw [hm] at h; simp at h
          | some r =>
            obtain ⟨n2, g2⟩ := r
            rw [hm] at h
            simp only [Option.some.injEq, Prod.mk.injEq] at h
            subst hd
            rw [← h.1, List.take_succ_cons]
            exact TMatch.lit d ts _ (ih cs2 n2 g2 hm)
        · rw [if_neg hd] at h
          simp at h
    | cls p =>
      intro cs n g h
      simp only [matchToks] at h
      obtain ⟨j2, n2, h1, h2, h3, h4⟩ := tryCls_some _ cs (runLen p cs) n g h
      rw [h4, List.take_add]
      refine TMatch.cls p ts (cs.take j2) ((cs.drop j2).take n2) ?_ ?_ (ih _ _ _ h3)
      · have h6 : j2 ≤ cs.length := le_trans h2 (runLen_le_length p cs)
        intro hnil
        have := congrArg List.length hnil
        simp only [List.length_take, List.length_nil] at this
        omega
      · exact sat_of_le_runLen p cs j2 h2
    | grp p =>
      intro cs n g h
      simp only [matchToks] at h
      obtain ⟨j2, n2, g2, h1, h2, h3, h4, h5⟩ := tryGrp_some _ cs (runLen p cs) n g h
      rw [h4, List.take_add]
      refine TMatch.grp p ts (cs.take j2) ((cs.drop j2).take n2) ?_ ?_ (ih _ _ _ h3)
      · have h6 : j2 ≤ cs.length := le_trans h2 (runLen_le_length p cs)
        intro hnil
        have := congrArg List.length hnil
        simp only [List.length_take, List.length_nil] at this
        omega
      · exact sat_of_le_runLen p cs j2 h2

theorem matchToks_lit_head {c : Char} {ts : List Tok} {cs : List Char} {n : ℕ}
    {g : List (List Char)} (h : matchToks (Tok.lit c :: ts) cs = some (n, g)) :
    1 ≤ n ∧ ∃ cs2, cs = c :: cs2 := by
  cases cs with
  | nil => simp [matchToks] at h
  | cons d cs2 =>
    simp only [matchToks] at h
    by_cases hd : d = c
    · rw [if_pos hd] at h
      cases hm : matchToks ts cs2 with
      | none => rw [hm] at h; simp at h
      | some r =>
        obtain ⟨n2, g2⟩ := r
        rw [hm] at h
        simp only [Option.some.injEq, Prod.mk.injEq] at h
        subst hd
        exact ⟨by omega, cs2, rfl⟩
    · rw [if_neg hd] at h
      simp at h

theorem TMatch_last_cls :
    ∀ (ts : List Tok) (p : Char → Bool) (s : List Char),
      TMatch (ts ++ [Tok.cls p]) s → s ≠ [] ∧ ∃ c, s.getLast? = some c ∧ p c = true := by
  intro ts
  induction ts with
  | nil =>
    intro p s h
    rw [List.nil_append] at h
    cases h with
    | cls _ _ seg s2 hne hsat hrest =>
      cases hrest
      rw [List.append_nil]
      refine ⟨hne, ?_⟩
      cases hl : seg.getLast? with
      | none => exact absurd (List.getLast?_eq_none_iff.mp hl) hne
      | some c =>
        exact ⟨c, rfl, hsat c (List.mem_of_mem_getLast? (by simp [Option.mem_def, hl]))⟩
  | cons t ts ih =>
    intro p s h
    cases h with
    | lit c _ s2 h2 =>
      obtain ⟨hne, c2, hl, hp⟩ := ih p s2 h2
      refine ⟨by simp, c2, ?_, hp⟩
      rw [List.getLast?_cons, hl]
      rfl
    | cls q _ seg s2 hseg hsat h2 =>
      obtain ⟨hne, c2, hl, hp⟩ := ih p s2 h2
      refine ⟨by simp [hne], c2, ?_, hp⟩
      rw [List.getLast?_append, hl]
      rfl
    | grp q _ seg s2 hseg hsat h2 =>
      obtain ⟨hne, c2, hl, hp⟩ := ih p s2 h2
      refine ⟨by simp [hne], c2, ?_, hp⟩
      rw [List.getLast?_append, hl]
      rfl

theorem searchAux_nil (toks : List Tok) (i : ℕ) :
    searchAux toks i [] =
      match matchToks toks [] with
      | some (n, g) => some (i, n, g)
      | none => none := rfl

theorem searchAux_cons (toks : List Tok) (i : ℕ) (d : Char) (cs2 : List Char) :
    searchAux toks i (d :: cs2) =
      match matchToks toks (d :: cs2) with
      | some (n, g) => some (i, n, g)
      | none => searchAux toks (i + 1) cs2 := rfl

theorem searchAux_some (toks : List Tok) :
    ∀ (cs : List Char) (i st n : ℕ) (g : List (List Char)),
      searchAux toks i cs = some (st, n, g) →
      i ≤ st ∧ st - i ≤ cs.length ∧ matchToks toks (cs.drop (st - i)) = some (n, g) := by
  intro cs
  induction cs with
  | nil =>
    intro i st n g h
    rw [searchAux_nil] at h
    cases hm : matchToks toks [] with
    | none =>
      rw [hm] at h
      exact absurd h (by simp)
    | some r =>
      obtain ⟨n2, g2⟩ := r
      rw [hm] at h
      simp only [Option.some.injEq, Prod.mk.injEq] at h
      obtain ⟨rfl, rfl, rfl⟩ := h
      simpa using hm
  | cons d cs2 ih =>
    intro i st n g h
    rw [searchAux_cons] at h
    cases hm : matchToks toks (d :: cs2) with
    | some r =>
      obtain ⟨n2, g2⟩ := r
      rw [hm] at h
      simp only [Option.some.injEq, Prod.mk.injEq] at h
      obtain ⟨rfl, rfl, rfl⟩ := h
      simpa using hm
    | none =>
      rw [hm] at h
      obtain ⟨h1, h2, h3⟩ := ih (i + 1) st n g h
      refine ⟨by omega, ?_, ?_⟩
      · simp only [List.length_cons]
        omega
      · have heq : (d :: cs2).drop (st - i) = cs2.drop (st - (i + 1)) := by
          have h4 : st - i = (st - (i + 1)) + 1 := by omega
          rw [h4, List.drop_succ_cons]
        rw [heq]
        exact h3

theorem finditerGo_eq (toks : List Tok) (fuel i : ℕ) (cs : List Char) :
    finditerGo toks (fuel + 1) i cs =
      match searchAux toks i cs with
      | none => []
      | some (st, n, g) =>
        (st, n, g) :: finditerGo toks fuel (st + n) (cs.drop (st + n - i)) := rfl

theorem finditerGo_good (toks : List Tok) (text : List Char) :
    ∀ (fuel i : ℕ), i ≤ text.length →
      GoodMatches toks text i (finditerGo toks fuel i (text.drop i)) := by
  intro fuel
  induction fuel with
  | zero =>
    intro i _
    exact trivial
  | succ fuel ih =>
    intro i hi
    cases hs : searchAux toks i (text.drop i) with
    | none =>
      rw [finditerGo_eq, hs]
      exact trivial
    | some r =>
      obtain ⟨st, n, g⟩ := r
      obtain ⟨h1, h2, h3⟩ := searchAux_some toks (text.drop i) i st n g hs
      rw [List.length_drop] at h2
      rw [List.drop_drop] at h3
      have heq : i + (st - i) = st := by omega
      rw [heq] at h3
      have hn : n ≤ text.length - st := by
        have h4 := matchToks_le_length toks (text.drop st) n g h3
        rwa [List.length_drop] at h4
      rw [finditerGo_eq, hs]
      show GoodMatches toks text i ((st, n, g) ::
        finditerGo toks fuel (st + n) ((text.drop i).drop (st + n - i)))
      have hdrop : (text.drop i).drop (st + n - i) = text.drop (st + n) := by
        rw [List.drop_drop]
        congr 1
        omega
      rw [hdrop]
      refine ⟨h1, h3, ?_⟩
      exact ih (st + n) (by omega)

theorem goodMatches_get (toks : List Tok) (text : List Char)
    (hpos : ∀ cs n2 g2, matchToks toks cs = some (n2, g2) → 1 ≤ n2) :
    ∀ (M : List (ℕ × ℕ × List (List Char))) (lo : ℕ), GoodMatches toks text lo M →
      ∀ i (h : i < M.length),
        matchToks toks (text.drop ((M.get ⟨i, h⟩).1)) =
            some ((M.get ⟨i, h⟩).2.1, (M.get ⟨i, h⟩).2.2) ∧
          (M.get ⟨i, h⟩).1 + (M.get ⟨i, h⟩).2.1 ≤ spanEnd M i text.length := by
  intro M
  induction M with
  | nil =>
    intro lo _ i h
    simp at h
  | cons m ms ih =>
    intro lo hg i h
    obtain ⟨h1, h2, h3⟩ := hg
    cases i with
    | zero =>
      refine ⟨h2, ?_⟩
      show m.1 + m.2.1 ≤ spanEnd (m :: ms) 0 text.length
      cases ms with
      | nil =>
        simp only [spanEnd, List.drop_succ_cons, List.drop_nil]
        have hn := hpos _ _ _ h2
        have hle := matchToks_le_length toks (text.drop m.1) m.2.1 m.2.2 h2
        rw [List.length_drop] at hle
        by_cases hst : m.1 ≤ text.length
        · omega
        · exfalso
          have hdrop : text.drop m.1 = [] := by
            apply List.drop_eq_nil_of_le
            omega
          rw [hdrop] at h2
          have hz := matchToks_le_length toks [] m.2.1 m.2.2 h2
          simp at hz
          omega
      | cons m2 ms2 =>
        simp only [spanEnd, List.drop_succ_cons, List.drop_zero]
        exact h3.1
    | succ j =>
      have hse : spanEnd (m :: ms) (j + 1) text.length = spanEnd ms j text.length := by
        simp [spanEnd, List.drop_succ_cons]
      rw [hse]
      exact ih (m.1 + m.2.1) h3 j (by simpa using h)

theorem spans_length :
    ∀ (M : List (ℕ × ℕ × List (List Char))) (total : ℕ), (spans M total).length = M.length := by
  intro M
  induction M with
  | nil => intro total; simp [spans]
  | cons m ms ih =>
    intro total
    cases ms with
    | nil => simp [spans]
    | cons m2 ms2 =>
      simp only [spans, List.length_cons]
      rw [ih total]
      simp

theorem spans_get :
    ∀ (M : List (ℕ × ℕ × List (List Char))) (total i : ℕ) (h : i < M.length)
      (h2 : i < (spans M total).length),
      (spans M total).get ⟨i, h2⟩ = ((M.get ⟨i, h⟩).1, spanEnd M i total) := by
  intro M
  induction M with
  | nil =>
    intro total i h
    simp at h
  | cons m ms ih =>
    intro total i h h2
    cases ms with
    | nil =>
      have h0 : i = 0 := by
        simp at h
        omega
      subst h0
      simp [spans, spanEnd]
    | cons m2 ms2 =>
      cases i with
      | zero => simp [spans, spanEnd]
      | succ j =>
        have h3 : j < (spans (m2 :: ms2) total).length := by
          rw [spans_length]
          simpa using h
        have h4 : (spans (m :: m2 :: ms2) total).get ⟨j + 1, h2⟩ =
            (spans (m2 :: ms2) total).get ⟨j, h3⟩ := by
          simp [spans]
        rw [h4, ih total j (by simpa using h) h3]
        have h5 : spanEnd (m :: m2 :: ms2) (j + 1) total = spanEnd (m2 :: ms2) j total := by
          simp [spanEnd, List.drop_succ_cons]
        rw [h5]
        simp

/-! ## `str.strip` lemmas -/

theorem dropWhile_head_false (p : Char → Bool) :
    ∀ (l : List Char) (c : Char) (r : List Char), l.dropWhile p = c :: r → p c = false := by
  intro l
  induction l with
  | nil =>
    intro c r h
    simp at h
  | cons d l2 ih =>
    intro c r h
    rw [List.dropWhile_cons] at h
    by_cases hd : p d = true
    · rw [if_pos hd] at h
      exact ih c r h
    · rw [if_neg hd] at h
      obtain ⟨rfl, -⟩ := List.cons.injEq d l2 c r ▸ h
      simpa using hd

theorem dropWhile_idem (p : Char → Bool) (l : List Char) :
    (l.dropWhile p).dropWhile p = l.dropWhile p := by
  cases h : l.dropWhile p with
  | nil => simp
  | cons c r =>
    rw [List.dropWhile_cons, if_neg]
    simp [dropWhile_head_false p l c r h]

theorem rstripPy_isPre (x : List Char) : rstripPy x <+: x := by
  rw [rstripPy]
  have h1 : (x.reverse.dropWhile isPySpace) <:+ x.reverse := List.dropWhile_suffix isPySpace
  have h2 := List.reverse_prefix.mpr h1
  rwa [List.reverse_reverse] at h2

theorem pyStrip_solid_prefix (c : Char) (cs t : List Char) (c2 : Char)
    (hc : isPySpace c = false) (hl : (c :: cs).getLast? = some c2)
    (hc2 : isPySpace c2 = false) :
    (c :: cs) <+: pyStrip ((c :: cs) ++ t) := by
  have h1 : lstripPy ((c :: cs) ++ t) = (c :: cs) ++ t := by
    rw [lstripPy, List.cons_append, List.dropWhile_cons, if_neg (by simp [hc])]
  rw [pyStrip, h1, rstripPy, List.reverse_append, List.dropWhile_append]
  by_cases he : (t.reverse.dropWhile isPySpace).isEmpty = true
  · rw [if_pos he]
    have hrev : (c :: cs).reverse.head? = some c2 := by
      rw [List.head?_reverse, hl]
    obtain ⟨rev2, hrev2⟩ : ∃ rev2, (c :: cs).reverse = c2 :: rev2 := by
      cases hx : (c :: cs).reverse with
      | nil =>
        rw [hx] at hrev
        simp at hrev
      | cons a b =>
        rw [hx] at hrev
        simp only [List.head?_cons, Option.some.injEq] at hrev
        exact ⟨b, by rw [hrev]⟩
    rw [hrev2, List.dropWhile_cons, if_neg (by simp [hc2]), ← hrev2, List.reverse_reverse]
  · rw [if_neg he, List.reverse_append, List.reverse_reverse]
    exact ⟨_, rfl⟩

theorem digit_not_space (c : Char) (h : reD c = true) : isPySpace c = false := by
  by_contra hsp
  rw [Bool.not_eq_false] at hsp
  rw [isPySpace] at hsp
  simp only [Bool.or_eq_true, decide_eq_true_eq] at hsp
  rcases hsp with ((((rfl | rfl) | rfl) | rfl) | rfl) | rfl <;> simp [reD] at h

theorem pyStrip_idem (s : List Char) : pyStrip (pyStrip s) = pyStrip s := by
  rw [pyStrip, pyStrip]
  have h1 : lstripPy (rstripPy (lstripPy s)) = rstripPy (lstripPy s) := by
    cases hx : rstripPy (lstripPy s) with
    | nil => simp [lstripPy]
    | cons c r =>
      have hpre : rstripPy (lstripPy s) <+: lstripPy s := rstripPy_isPre (lstripPy s)
      rw [hx] at hpre
      obtain ⟨t2, ht2⟩ := hpre
      have hcf : isPySpace c = false := by
        apply dropWhile_head_false isPySpace s c (r ++ t2)
        rw [← List.cons_append, ht2]
        rfl
      rw [lstripPy, List.dropWhile_cons, if_neg (by simp [hcf])]
  rw [h1]
  simp only [rstripPy, List.reverse_reverse]
  rw [dropWhile_idem]

/-! ## Marker and page lemmas -/

theorem page_pattern_pos :
    ∀ (cs : List Char) (n2 : ℕ) (g2 : List (List Char)),
      matchToks page_pattern cs = some (n2, g2) → 1 ≤ n2 := by
  intro cs n2 g2 hm
  obtain ⟨ts, hts⟩ : ∃ ts, page_pattern = Tok.lit 'C' :: ts := ⟨_, rfl⟩
  rw [hts] at hm
  exact (matchToks_lit_head hm).1

theorem finditer_good (text : List Char) :
    GoodMatches page_pattern text 0 (reFinditer page_pattern text) := by
  have h := finditerGo_good page_pattern text (text.length + 1) 0 (by omega)
  simpa [reFinditer] using h

theorem marker_facts (text : List Char) :
    ∀ i (h : i < (reFinditer page_pattern text).length),
      matchToks page_pattern
          (text.drop ((reFinditer page_pattern text).get ⟨i, h⟩).1) =
        some (((reFinditer page_pattern text).get ⟨i, h⟩).2.1,
          ((reFinditer page_pattern text).get ⟨i, h⟩).2.2) ∧
      ((reFinditer page_pattern text).get ⟨i, h⟩).1 +
          ((reFinditer page_pattern text).get ⟨i, h⟩).2.1 ≤
        spanEnd (reFinditer page_pattern text) i text.length := by
  intro i h
  exact goodMatches_get page_pattern text page_pattern_pos _ 0 (finditer_good text) i h

theorem page_match_shape (s : List Char) (hT : TMatch page_pattern s) :
    (∃ s2, s = 'C' :: s2) ∧ s ≠ [] ∧ ∃ c2, s.getLast? = some c2 ∧ reD c2 = true := by
  constructor
  · obtain ⟨ts, hts⟩ : ∃ ts, page_pattern = Tok.lit 'C' :: ts := ⟨_, rfl⟩
    rw [hts] at hT
    cases hT with
    | lit _ _ s2 _ => exact ⟨s2, rfl⟩
  · have hshape : page_pattern = page_pattern_front ++ [Tok.cls reD] := rfl
    rw [hshape] at hT
    exact TMatch_last_cls page_pattern_front reD s hT

theorem marker_isPre_page (text : List Char) (i : ℕ)
    (h : i < (reFinditer page_pattern text).length) :
    ((text.drop ((reFinditer page_pattern text).get ⟨i, h⟩).1).take
        ((reFinditer page_pattern text).get ⟨i, h⟩).2.1) <+:
      pyStrip ((text.drop ((reFinditer page_pattern text).get ⟨i, h⟩).1).take
        (spanEnd (reFinditer page_pattern text) i text.length -
          ((reFinditer page_pattern text).get ⟨i, h⟩).1)) ∧
    pyStrip ((text.drop ((reFinditer page_pattern text).get ⟨i, h⟩).1).take
        (spanEnd (reFinditer page_pattern text) i text.length -
          ((reFinditer page_pattern text).get ⟨i, h⟩).1)) ≠ [] := by
  obtain ⟨hmatch, hen⟩ := marker_facts text i h
  have hT : TMatch page_pattern
      ((text.drop ((reFinditer page_pattern text).get ⟨i, h⟩).1).take
        ((reFinditer page_pattern text).get ⟨i, h⟩).2.1) :=
    matchToks_sound _ _ _ _ hmatch
  obtain ⟨⟨s2, hs2⟩, hne, c2, hl, hdig⟩ := page_match_shape _ hT
  have htake : (text.drop ((reFinditer page_pattern text).get ⟨i, h⟩).1).take
      (spanEnd (reFinditer page_pattern text) i text.length -
        ((reFinditer page_pattern text).get ⟨i, h⟩).1) =
      ((text.drop ((reFinditer page_pattern text).get ⟨i, h⟩).1).take
        ((reFinditer page_pattern text).get ⟨i, h⟩).2.1) ++
      (((text.drop ((reFinditer page_pattern text).get ⟨i, h⟩).1).drop
        ((reFinditer page_pattern text).get ⟨i, h⟩).2.1).take
        (spanEnd (reFinditer page_pattern text) i text.length -
          ((reFinditer page_pattern text).get ⟨i, h⟩).1 -
          ((reFinditer page_pattern text).get ⟨i, h⟩).2.1)) := by
    rw [← List.take_add]
    congr 1
    omega
  rw [htake, hs2]
  set X := ((text.drop ((reFinditer page_pattern text).get ⟨i, h⟩).1).drop
      ((reFinditer page_pattern text).get ⟨i, h⟩).2.1).take
      (spanEnd (reFinditer page_pattern text) i text.length -
        ((reFinditer page_pattern text).get ⟨i, h⟩).1 -
        ((reFinditer page_pattern text).get ⟨i, h⟩).2.1) with hX
  have hlast2 : ('C' :: s2).getLast? = some c2 := by
    rw [← hs2]
    exact hl
  have hpre := pyStrip_solid_prefix 'C' s2 X c2 rfl hlast2 (digit_not_space c2 hdig)
  refine ⟨hpre, ?_⟩
  intro hnil
  obtain ⟨t3, ht3⟩ := hpre
  rw [hnil] at ht3
  simp at ht3

theorem split_into_pages_markers (text : List Char)
    (hM2 : (reFinditer page_pattern text).isEmpty = false) :
    split_into_pages text =
      (spans (reFinditer page_pattern text) text.length).map (fun se =>
        let page_content := pyStrip ((text.drop se.1).take (se.2 - se.1))
        let pt := extract_page_info page_content
        (page_content, pt.1, pt.2)) := by
  unfold split_into_pages
  simp [hM2]

theorem split_into_pages_nomarker (text : List Char)
    (hM2 : (reFinditer page_pattern text).isEmpty = true) :
    split_into_pages text =
      [(text, (extract_page_info text).1, (extract_page_info text).2)] := by
  unfold split_into_pages
  simp [hM2]

/-- C3, amended: with at least one marker, the segmenter returns one page per
marker; page `i`'s content is the text span from marker `i`'s start offset to
marker `i+1`'s start offset (or end of text for the last marker), trimmed of
leading and trailing whitespace as the code strips each slice, so the marker
text itself is still included at the front of its page's content; and each
page's `(pageNumber, totalPages)` is re-extracted from within that page's own
(stripped) span. -/
theorem pages_from_markers (text : List Char)
    (hM : reFinditer page_pattern text ≠ []) :
    (split_into_pages text).length = (reFinditer page_pattern text).length ∧
    ∀ i (hi : i < (reFinditer page_pattern text).length),
      ∃ hp : i < (split_into_pages text).length,
        (split_into_pages text).get ⟨i, hp⟩ =
          (pyStrip ((text.drop ((reFinditer page_pattern text).get ⟨i, hi⟩).1).take
              (spanEnd (reFinditer page_pattern text) i text.length -
                ((reFinditer page_pattern text).get ⟨i, hi⟩).1)),
            (extract_page_info (pyStrip
              ((text.drop ((reFinditer page_pattern text).get ⟨i, hi⟩).1).take
                (spanEnd (reFinditer page_pattern text) i text.length -
                  ((reFinditer page_pattern text).get ⟨i, hi⟩).1)))).1,
            (extract_page_info (pyStrip
              ((text.drop ((reFinditer page_pattern text).get ⟨i, hi⟩).1).take
                (spanEnd (reFinditer page_pattern text) i text.length -
                  ((reFinditer page_pattern text).get ⟨i, hi⟩).1)))).2) ∧
        ((reFinditer page_pattern text).get ⟨i, hi⟩).1 +
            ((reFinditer page_pattern text).get ⟨i, hi⟩).2.1 ≤
          spanEnd (reFinditer page_pattern text) i text.length ∧
        ((text.drop ((reFinditer page_pattern text).get ⟨i, hi⟩).1).take
            ((reFinditer page_pattern text).get ⟨i, hi⟩).2.1) <+:
          ((split_into_pages text).get ⟨i, hp⟩).1 := by
  have hM2 : (reFinditer page_pattern text).isEmpty = false := by
    cases hx : reFinditer page_pattern text with
    | nil => exact absurd hx hM
    | cons a b => rfl
  have hsp := split_into_pages_markers text hM2
  have hlen : (split_into_pages text).length = (reFinditer page_pattern text).length := by
    rw [hsp, List.length_map, spans_length]
  refine ⟨hlen, ?_⟩
  intro i hi
  have hp : i < (split_into_pages text).length := by
    rw [hlen]
    exact hi
  have hgeteq : (split_into_pages text).get ⟨i, hp⟩ =
      (pyStrip ((text.drop ((reFinditer page_pattern text).get ⟨i, hi⟩).1).take
          (spanEnd (reFinditer page_pattern text) i text.length -
            ((reFinditer page_pattern text).get ⟨i, hi⟩).1)),
        (extract_page_info (pyStrip
          ((text.drop ((reFinditer page_pattern text).get ⟨i, hi⟩).1).take
            (spanEnd (reFinditer page_pattern text) i text.length -
              ((reFinditer page_pattern text).get ⟨i, hi⟩).1)))).1,
        (extract_page_info (pyStrip
          ((text.drop ((reFinditer page_pattern text).get ⟨i, hi⟩).1).take
            (spanEnd (reFinditer page_pattern text) i text.length -
              ((reFinditer page_pattern text).get ⟨i, hi⟩).1)))).2) := by
    rw [List.get_of_eq hsp, List.get_map]
    have hsl : i < (spans (reFinditer page_pattern text) text.length).length := by
      rw [spans_length]
      exact hi
    rw [spans_get (reFinditer page_pattern text) text.length i hi hsl]
  refine ⟨hp, hgeteq, (marker_facts text i hi).2, ?_⟩
  rw [hgeteq]
  exact (marker_isPre_page text i hi).1

/-! ## `process_file` lemmas -/

theorem process_file_content (document_id folder source_file text : List Char) :
    ∀ r ∈ process_file document_id folder source_file text,
      ∃ p ∈ split_into_pages text, r.content = p.1 := by
  intro r hr
  simp only [process_file, List.mem_map] at hr
  obtain ⟨ip, hip, rfl⟩ := hr
  refine ⟨ip.2, ?_, rfl⟩
  have h1 := List.mem_enum_iff_get?.mp hip
  exact List.get?_mem h1

theorem page_content_nonempty (text : List Char) (ht : text ≠ []) :
    ∀ p ∈ split_into_pages text, p.1 ≠ [] := by
  intro p hp
  cases hM : (reFinditer page_pattern text).isEmpty with
  | true =>
    rw [split_into_pages_nomarker text hM] at hp
    simp only [List.mem_singleton] at hp
    rw [hp]
    exact ht
  | false =>
    rw [split_into_pages_markers text hM] at hp
    simp only [List.mem_map] at hp
    obtain ⟨se, hse, rfl⟩ := hp
    obtain ⟨fin, hfin⟩ := List.mem_iff_get.mp hse
    have h2 : fin.1 < (reFinditer page_pattern text).length := by
      have h3 := fin.isLt
      have h4 := spans_length (reFinditer page_pattern text) text.length
      omega
    have hsg : (spans (reFinditer page_pattern text) text.length).get fin =
        (((reFinditer page_pattern text).get ⟨fin.1, h2⟩).1,
          spanEnd (reFinditer page_pattern text) fin.1 text.length) :=
      spans_get (reFinditer page_pattern text) text.length fin.1 h2 fin.2
    rw [hsg] at hfin
    rw [← hfin]
    simpa using (marker_isPre_page text fin.1 h2).2

/-! ## Claim theorems for the segmenter -/

set_option maxRecDepth 8192 in
/-- C3, counterexample: on a document that is exactly one marker followed by a
newline, the single page's content is the stripped slice (the trailing newline
is removed), so it is not literally "the text span from the marker's start
offset to end of text" — the span is 53 characters, the content 52.  The
page-per-marker count and the marker-inclusion stand; only the unqualified
"content is the text span" fails, because the code strips each slice. -/
theorem page_span_counterexample :
    (reFinditer page_pattern
        ("Case 1:19-cv-1 Document 1 Filed 01/01/19 Page 1 of 2\n".toList)).length = 1 ∧
    (split_into_pages
        ("Case 1:19-cv-1 Document 1 Filed 01/01/19 Page 1 of 2\n".toList)).length = 1 ∧
    ((split_into_pages
        ("Case 1:19-cv-1 Document 1 Filed 01/01/19 Page 1 of 2\n".toList)).get
          ⟨0, by decide⟩).1 ≠
      (("Case 1:19-cv-1 Document 1 Filed 01/01/19 Page 1 of 2\n".toList).drop
          ((reFinditer page_pattern
            ("Case 1:19-cv-1 Document 1 Filed 01/01/19 Page 1 of 2\n".toList)).get
              ⟨0, by decide⟩).1).take
        (spanEnd (reFinditer page_pattern
            ("Case 1:19-cv-1 Document 1 Filed 01/01/19 Page 1 of 2\n".toList)) 0
            ("Case 1:19-cv-1 Document 1 Filed 01/01/19 Page 1 of 2\n".toList).length -
          ((reFinditer page_pattern
            ("Case 1:19-cv-1 Document 1 Filed 01/01/19 Page 1 of 2\n".toList)).get
              ⟨0, by decide⟩).1) := by
  refine ⟨by decide, by decide, by decide⟩

set_option maxRecDepth 8192 in
/-- Witness for C3's amended statement at a concrete one-marker document:
the marker list is non-empty and the segmenter returns exactly one page per
marker. -/
theorem pages_from_markers_witness :
    reFinditer page_pattern
        ("Case 1:19-cv-1 Document 1 Filed 01/01/19 Page 1 of 2\n".toList) ≠ [] ∧
      (split_into_pages
          ("Case 1:19-cv-1 Document 1 Filed 01/01/19 Page 1 of 2\n".toList)).length =
        (reFinditer page_pattern
          ("Case 1:19-cv-1 Document 1 Filed 01/01/19 Page 1 of 2\n".toList)).length :=
  ⟨by decide, (pages_from_markers _ (by decide)).1⟩

/-- C6: the case number attached to every page record of a document is the
result of the one `extract_case_number` search over only the first 500
characters of the full document text; in particular, when that search finds
nothing, every record of the document has a null case number even if the
token occurs after the 500-character prefix. -/
theorem case_number_attached (document_id folder source_file text : List Char) :
    (∀ r ∈ process_file document_id folder source_file text,
      r.case_number = extract_case_number (text.take 500)) ∧
    (extract_case_number (text.take 500) = none →
      ∀ r ∈ process_file document_id folder source_file text, r.case_number = none) := by
  have hmain : ∀ r ∈ process_file document_id folder source_file text,
      r.case_number = extract_case_number (text.take 500) := by
    intro r hr
    simp only [process_file, List.mem_map] at hr
    obtain ⟨ip, hip, rfl⟩ := hr
    rfl
  refine ⟨hmain, ?_⟩
  intro hnone r hr
  rw [hmain r hr, hnone]

/-- Witness for C6 at a concrete one-page document with no case token. -/
theorem case_number_attached_witness :
    ((process_file ['d'] ['f'] ['s'] ['x']).get ⟨0, by decide⟩ ∈
        process_file ['d'] ['f'] ['s'] ['x']) ∧
      ((process_file ['d'] ['f'] ['s'] ['x']).get ⟨0, by decide⟩).case_number =
        extract_case_number (List.take 500 ['x']) :=
  ⟨List.get_mem _ _ _,
    (case_number_attached ['d'] ['f'] ['s'] ['x']).1 _ (List.get_mem _ _ _)⟩

/-- C7, counterexample: a document with no marker is returned as a single
page whose content is the raw document text, NOT stripped (the code's
no-marker branch returns `content` unstripped), so a document consisting of
`" a "` yields a record whose content keeps its leading and trailing
spaces. -/
theorem content_trim_counterexample :
    ¬ (∀ r ∈ process_file ['d'] ['f'] ['s'] [' ', 'a', ' '],
        pyStrip r.content = r.content) := by decide

/-- C7, amended: for a document in which at least one marker is found, every
emitted page record's content is trimmed of leading and trailing whitespace
(it is the `.strip()` of its slice); in the no-marker case the single page's
content is the raw document text, untrimmed. -/
theorem marker_pages_trimmed (document_id folder source_file text : List Char)
    (hM : reFinditer page_pattern text ≠ []) :
    ∀ r ∈ process_file document_id folder source_file text,
      pyStrip r.content = r.content := by
  intro r hr
  obtain ⟨p, hp, hc⟩ := process_file_content document_id folder source_file text r hr
  rw [hc]
  have hM2 : (reFinditer page_pattern text).isEmpty = false := by
    cases hx : reFinditer page_pattern text with
    | nil => exact absurd hx hM
    | cons a b => rfl
  rw [split_into_pages_markers text hM2] at hp
  simp only [List.mem_map] at hp
  obtain ⟨se, hse, rfl⟩ := hp
  simpa using pyStrip_idem ((text.drop se.1).take (se.2 - se.1))

set_option maxRecDepth 8192 in
/-- Witness for C7's amended statement at a concrete one-marker document. -/
theorem marker_pages_trimmed_witness :
    reFinditer page_pattern
        ("Case 1:19-cv-1 Document 1 Filed 01/01/19 Page 1 of 2\n".toList) ≠ [] ∧
      pyStrip (((process_file ['d'] ['f'] ['s']
          ("Case 1:19-cv-1 Document 1 Filed 01/01/19 Page 1 of 2\n".toList)).get
            ⟨0, by decide⟩).content) =
        ((process_file ['d'] ['f'] ['s']
          ("Case 1:19-cv-1 Document 1 Filed 01/01/19 Page 1 of 2\n".toList)).get
            ⟨0, by decide⟩).content := by
  refine ⟨by decide, ?_⟩
  exact marker_pages_trimmed ['d'] ['f'] ['s'] _ (by decide) _ (List.get_mem _ _ _)

/-- C8: every emitted page record's `page_number` is present and at least 1:
it is the integer parsed from the page's "Page X of Y" text when that parse
yields a usable (truthy, i.e. non-zero) value, and otherwise the record's
1-based positional index within the document's page list. -/
theorem page_number_valid (document_id folder source_file text : List Char) :
    ∀ i (hi : i < (process_file document_id folder source_file text).length),
      ∃ hp : i < (split_into_pages text).length,
        1 ≤ ((process_file document_id folder source_file text).get ⟨i, hi⟩).page_number ∧
        ((∃ n, ((split_into_pages text).get ⟨i, hp⟩).2.1 = some n ∧ n ≠ 0 ∧
            ((process_file document_id folder source_file text).get
              ⟨i, hi⟩).page_number = n) ∨
          ((((split_into_pages text).get ⟨i, hp⟩).2.1 = none ∨
              ((split_into_pages text).get ⟨i, hp⟩).2.1 = some 0) ∧
            ((process_file document_id folder source_file text).get
              ⟨i, hi⟩).page_number = i + 1)) := by
  intro i hi
  have hlen : (process_file document_id folder source_file text).length =
      (split_into_pages text).length := by
    simp [process_file]
  have hp : i < (split_into_pages text).length := by
    rw [← hlen]
    exact hi
  have hpn : ((process_file document_id folder source_file text).get ⟨i, hi⟩).page_number =
      pyOrElse ((split_into_pages text).get ⟨i, hp⟩).2.1 (i + 1) := by
    simp only [process_file]
    rw [List.get_map]
    have he : ∀ (h3 : i < (split_into_pages text).enum.length),
        (split_into_pages text).enum.get ⟨i, h3⟩ =
          (i, (split_into_pages text).get ⟨i, hp⟩) := by
      intro h3
      simp [List.get_eq_getElem, List.getElem_enum]
    rw [he]
  refine ⟨hp, ?_, ?_⟩
  · rw [hpn]
    cases hx : ((split_into_pages text).get ⟨i, hp⟩).2.1 with
    | none => simp [pyOrElse]
    | some n =>
      by_cases hn : n = 0
      · simp [pyOrElse, hx, hn]
      · simp [pyOrElse, hx, hn]
        omega
  · cases hx : ((split_into_pages text).get ⟨i, hp⟩).2.1 with
    | none =>
      refine Or.inr ⟨Or.inl rfl, ?_⟩
      rw [hpn, hx]
      rfl
    | some n =>
      by_cases hn : n = 0
      · refine Or.inr ⟨Or.inr (by simp [hx, hn]), ?_⟩
        rw [hpn, hx, hn]
        rfl
      · refine Or.inl ⟨n, rfl, hn, ?_⟩
        rw [hpn, hx]
        simp [pyOrElse, hn]

/-- Witness for C8 at a concrete document containing "Page 2 of 5". -/
theorem page_number_valid_witness :
    0 < (process_file ['d'] ['f'] ['s'] ("Page 2 of 5".toList)).length ∧
      1 ≤ ((process_file ['d'] ['f'] ['s'] ("Page 2 of 5".toList)).get
        ⟨0, by decide⟩).page_number := by
  refine ⟨by decide, ?_⟩
  obtain ⟨hp, h1, h2⟩ :=
    page_number_valid ['d'] ['f'] ['s'] ("Page 2 of 5".toList) 0 (by decide)
  exact h1

/-- C9, counterexample: an empty (successfully read) document produces
exactly one page record, and its content is the empty string: the no-marker
branch returns the raw document as the single page without any emptiness
check, and `process_file` emits a record for every page. -/
theorem empty_content_counterexample :
    (process_file ['d'] ['f'] ['s'] []).length = 1 ∧
      ¬ (∀ r ∈ process_file ['d'] ['f'] ['s'] [], r.content ≠ []) := by decide

/-- C9, amended: for every successfully read NON-EMPTY document (including a
whitespace-only one), every page record emitted has non-empty content; only
the empty document yields a record with empty content. -/
theorem nonempty_doc_content (document_id folder source_file text : List Char)
    (ht : text ≠ []) :
    ∀ r ∈ process_file document_id folder source_file text, r.content ≠ [] := by
  intro r hr
  obtain ⟨p, hp, hc⟩ := process_file_content document_id folder source_file text r hr
  rw [hc]
  exact page_content_nonempty text ht p hp

/-- Witness for C9's amended statement at a concrete one-character document. -/
theorem nonempty_doc_content_witness :
    (['x'] : List Char) ≠ [] ∧
      ((process_file ['d'] ['f'] ['s'] ['x']).get ⟨0, by decide⟩).content ≠ [] := by
  refine ⟨by decide, ?_⟩
  exact nonempty_doc_content ['d'] ['f'] ['s'] ['x'] (by decide) _ (List.get_mem _ _ _)
